import Mathlib

/-
Verification of the Shadow parallel event-scheduling core and of the
`test_listen` calibration harness.

The repository sources available here are `src/main/core/mod.rs` (which only
declares the core submodules `cpu`, `scheduler`, `manager`, ...) and the
complete harness `src/test/socket/listen/test_listen.rs`.  The bodies of the
core submodules are not in the sources, so the CPU model, the Scheduler and
the Manager initialisation are modelled from the specification text (each
such definition carries a doc comment starting with `Modelled from the
spec:`).  The harness definitions are translated directly from
`test_listen.rs`.
-/

namespace ShadowSpec

/-! ## CPU model (spec-modelled) -/

/-- Modelled from the spec: per-host CPU model state (§3, §4.1).  The module
`main/core/cpu` is declared in `main/core/mod.rs` but its body is missing from
the sources.  `capacity` is the configured virtual CPU capacity
(`none` = no configured limit, work is free), `next_available` the running
next-available timestamp. -/
structure Cpu where
  capacity : Option Nat
  next_available : Nat
deriving Repr, DecidableEq

/-- Modelled from the spec: the simulated-time delay a piece of work consumes
(§4.1).  A negative or zero `work_units` request is clamped and costs zero
delay; a host with no configured capacity limit executes work for free;
otherwise the work is divided by the capacity (rounding up). -/
def chargeDelay (capacity : Option Nat) (work_units : Int) : Nat :=
  if work_units ≤ 0 then 0
  else
    match capacity with
    | none => 0
    | some c => (work_units.toNat + c - 1) / c

/-- Modelled from the spec: `charge(host, simulated_now, work_units) -> delay`
(§4.1).  Returns the delay and the updated host CPU state; the spec's contract
is that the next-available timestamp is updated to
`max(simulated_now, next_available) + delay` and that a non-positive
`work_units` is a defensive clamp yielding zero delay, not a failure. -/
def charge (cpu : Cpu) (simulated_now : Nat) (work_units : Int) : Nat × Cpu :=
  let delay := chargeDelay cpu.capacity work_units
  (delay, { cpu with next_available := max simulated_now cpu.next_available + delay })

/-- A sequence of `charge` calls applied in order. -/
def chargeMany (cpu : Cpu) (calls : List (Nat × Int)) : Cpu :=
  calls.foldl (fun c p => (charge c p.1 p.2).2) cpu

/-! ## Work items and the Scheduler (spec-modelled) -/

/-- Modelled from the spec: a work item / event, the schedulable unit:
a `(simulated_time, sequence_number, host_id, action)` tuple (§3).  The module
`main/core/work` is declared in `main/core/mod.rs` but its body is missing
from the sources; the action is opaque to the scheduling core. -/
structure Event where
  simulated_time : Nat
  sequence_number : Nat
  host_id : Nat
  action : Nat
deriving Repr, DecidableEq

/-- The `(simulated_time, sequence_number)` dispatch order on events (§4.3):
lexicographic, earlier timestamps first, ties broken by lower sequence
number. -/
def eventLe (e f : Event) : Bool :=
  Nat.blt e.simulated_time f.simulated_time ||
    (e.simulated_time == f.simulated_time &&
      Nat.ble e.sequence_number f.sequence_number)

/-- Modelled from the spec: a Worker's scheduler queue, a min-heap ordered by
`(simulated_time, sequence_number)` (§3, §4.3).  The module
`main/core/scheduler` is declared in `main/core/mod.rs` but its body is
missing from the sources; the heap is modelled as the list of queued
events. -/
def SchedulerQueue : Type := List Event

/-- The minimum of the queue in the `(simulated_time, sequence_number)`
order. -/
def findMin : List Event → Option Event
  | [] => none
  | e :: es =>
    match findMin es with
    | none => some e
    | some m => if eventLe e m then some e else some m

/-- Modelled from the spec: `next_due(horizon) -> Option<Event>` (§4.3): pops
and returns the minimum event if its timestamp is ≤ `horizon`, else returns
nothing, leaving the heap untouched.  Returns the popped event (if any)
together with the remaining queue. -/
def next_due (q : List Event) (horizon : Nat) : Option Event × List Event :=
  match findMin q with
  | none => (none, q)
  | some m =>
    if m.simulated_time ≤ horizon then (some m, q.erase m) else (none, q)

/-! ## Manager initialisation (spec-modelled) -/

/-- Modelled from the spec: the configuration options recognised by the
Manager (§6). -/
structure Config where
  worker_count : Nat
  lookahead_bound : Nat
  end_time : Nat
deriving Repr, DecidableEq

/-- Modelled from the spec: the error taxonomy visible at Manager
initialisation (§7). -/
inductive ManagerError where
  | configurationError : String → ManagerError
deriving Repr, DecidableEq

/-- Modelled from the spec: the state the Manager holds after a successful
`Initializing` phase: the spawned workers, each owning a disjoint host subset
(round-robin assignment, §4.5). -/
structure ManagerState where
  workers : List (List Nat)
  current_horizon : Nat
deriving Repr, DecidableEq

/-- Round-robin partition of the host list across `n` workers (§4.5). -/
def partitionHosts (hosts : List Nat) (n : Nat) : List (List Nat) :=
  (List.range n).map fun i =>
    (hosts.enum.filter (fun p => p.1 % n == i)).map fun p => p.2

/-- Modelled from the spec: the Manager's `Initializing` phase (§4.5, §7).
The module `main/core/manager` is declared in `main/core/mod.rs` but its body
is missing from the sources.  The lookahead bound is validated to be ≥ the
network model's declared minimum inter-host latency and the worker count to be
non-zero; on violation the run fails fast with a `ConfigurationError` before
any Worker is spawned. -/
def managerInit (cfg : Config) (min_latency : Nat) (hosts : List Nat) :
    Except ManagerError ManagerState :=
  if cfg.worker_count == 0 then
    Except.error (ManagerError.configurationError ("zero worker count"))
  else if cfg.lookahead_bound < min_latency then
    Except.error (ManagerError.configurationError
      ("lookahead bound smaller than declared minimum latency"))
  else
    Except.ok { workers := partitionHosts hosts cfg.worker_count, current_horizon := 0 }

/-! ## The calibration harness, from `src/test/socket/listen/test_listen.rs`

The harness performs real `libc` calls (`socket`, `bind`, `listen`); the
observed return value and `errno` of those calls, and the `strerror` message
table, are environment inputs and appear as explicit parameters.  The numeric
values of the `libc` constants are the Linux values on the little-endian
x86-64 platform the harness targets (`to_be()` byte-swaps). -/

def SOCK_STREAM : Int := 1

def SOCK_DGRAM : Int := 2

def SOCK_NONBLOCK : Int := 2048

def SOCK_CLOEXEC : Int := 524288

/-- The value `libc::INADDR_LOOPBACK.to_be()` on a little-endian host:
`0x7f000001` byte-swapped to `0x0100007f`. -/
def INADDR_LOOPBACK_BE : Nat := 16777343

/-- The value `libc::INADDR_ANY.to_be()`: zero either way. -/
def INADDR_ANY_BE : Nat := 0

/-- The `BindAddress` struct of `test_listen.rs` (an `in_addr_t` address and
an `in_port_t` port, both already in network byte order). -/
structure BindAddress where
  address : Nat
  port : Nat
deriving Repr, DecidableEq

/-- The derived `Debug` rendering of an `Option<BindAddress>`, as produced by
the `{:?}` format used in the harness's test names. -/
def bindDebug : Option BindAddress → String
  | none => "None"
  | some b =>
    "Some(BindAddress \x7b address: " ++ toString b.address ++ ", port: " ++
      toString b.port ++ " \x7d)"

/-- The `append_args` closure of `get_passing_tests`/`get_all_tests`:
`format!("{} <type={},flag={},bind={:?}>", s, sock_type, flag, bind)`. -/
def append_args (s : String) (sock_type flag : Int) (bind : Option BindAddress) : String :=
  s ++ " <type=" ++ toString sock_type ++ ",flag=" ++ toString flag ++
    ",bind=" ++ bindDebug bind ++ ">"

/-- The `bind_addresses` array built in both test-collection functions. -/
def bind_addresses : List (Option BindAddress) :=
  [none,
   some { address := INADDR_LOOPBACK_BE, port := 0 },
   some { address := INADDR_ANY_BE, port := 0 }]

/-- The name component of the `tests` vector built by `get_passing_tests`,
in the order the Rust code pushes the entries. -/
def passingTestsVec : List String :=
  ["test_invalid_fd", "test_non_existent_fd", "test_invalid_sock_type"] ++
    ([SOCK_STREAM, SOCK_DGRAM].flatMap fun sock_type =>
      ([0, SOCK_NONBLOCK, SOCK_CLOEXEC]).flatMap fun flag =>
        bind_addresses.flatMap fun bind =>
          [append_args ("test_zero_backlog") sock_type flag bind,
           append_args ("test_negative_backlog") sock_type flag bind,
           append_args ("test_large_backlog") sock_type flag bind,
           append_args ("test_after_close") sock_type flag bind])

/-- The name component of the `tests` vector built by `get_all_tests` before
it merges in the passing tests. -/
def allOnlyTestsVec : List String :=
  ["test_non_socket_fd"] ++
    ([SOCK_STREAM, SOCK_DGRAM].flatMap fun sock_type =>
      ([0, SOCK_NONBLOCK, SOCK_CLOEXEC]).flatMap fun flag =>
        bind_addresses.flatMap fun bind =>
          [append_args ("test_listen_twice") sock_type flag bind])

/-- Lexicographic comparison of character lists by code point; on the ASCII
test names of this harness it coincides with the byte-wise `Ord` that
`BTreeMap<String, TestFn>` uses for its `String` keys. -/
def charListLt : List Char → List Char → Bool
  | [], [] => false
  | [], _ :: _ => true
  | _ :: _, [] => false
  | a :: as, b :: bs =>
    Nat.blt a.toNat b.toNat || (a.toNat == b.toNat && charListLt as bs)

/-- The strict lexicographic order on test names. -/
def strLt (a b : String) : Bool := charListLt a.data b.data

/-- Insertion of a key into the sorted key list of a
`BTreeMap<String, TestFn>`: keys are kept in strictly increasing
lexicographic order, and inserting an existing key only replaces its value. -/
def btreeInsert (k : String) : List String → List String
  | [] => [k]
  | x :: xs =>
    if strLt k x then k :: x :: xs
    else if k == x then x :: xs
    else x :: btreeInsert k xs

/-- The key list of the `BTreeMap` collected from a vector of
`(name, test)` pairs, inserting in vector order. -/
def btreeOfList (l : List String) : List String :=
  l.foldl (fun m k => btreeInsert k m) []

/-- The (sorted) key list of the map returned by `get_passing_tests`. -/
def get_passing_tests : List String := btreeOfList passingTestsVec

/-- The (sorted) key list of the map returned by `get_all_tests`: its own
vector collected into a `BTreeMap`, then `extend`ed with every entry of
`get_passing_tests`. -/
def get_all_tests : List String :=
  get_passing_tests.foldl (fun m k => btreeInsert k m) (btreeOfList allOnlyTestsVec)

/-- The `assert_eq!(num_tests, tests.len())` duplicate-name check of
`get_passing_tests`. -/
def passingAssertHolds : Prop :=
  get_passing_tests.length = passingTestsVec.length

/-- The `assert_eq!(num_tests, tests.len())` duplicate-name check of
`get_all_tests` (it runs on the map before the passing tests are merged
in). -/
def allAssertHolds : Prop :=
  (btreeOfList allOnlyTestsVec).length = allOnlyTestsVec.length

/-- The `run_tests` loop of `test_listen.rs`: runs each test in the iteration
order of the map, prints a result mark, and on a failure returns `Err(())`
immediately unless `summarize` is set.  The result of each test function is
given by the environment map `outcome`; the second component of the result is
the list of tests actually executed, in execution order. -/
def run_tests (outcome : String → Except String Unit) (summarize : Bool) :
    List String → Except Unit Unit × List String
  | [] => (Except.ok (), [])
  | t :: ts =>
    match outcome t with
    | Except.ok _ =>
      let r := run_tests outcome summarize ts
      (r.1, t :: r.2)
    | Except.error _ =>
      if summarize then
        let r := run_tests outcome summarize ts
        (r.1, t :: r.2)
      else (Except.error (), [t])

/-- The flag test `std::env::args().any(|x| x == s)` of `main`. -/
def hasArg (args : List String) (s : String) : Bool :=
  args.any fun x => x == s

/-- The test map chosen by `main` from the command-line flags. -/
def mainTests (args : List String) : List String :=
  if hasArg args ("--shadow-passing") then get_passing_tests else get_all_tests

/-- The result of `main`'s call to `run_tests`, given the environment's test
outcomes. -/
def mainRun (args : List String) (outcome : String → Except String Unit) :
    Except Unit Unit × List String :=
  run_tests outcome (hasArg args ("--summarize")) (mainTests args)

/-- The process exit code of `main`: 1 via `std::process::exit(1)` when
`run_tests` returns `Err`, otherwise 0 by falling off the end of `main`. -/
def mainExitCode (args : List String) (outcome : String → Except String Unit) : Nat :=
  match (mainRun args outcome).1 with
  | Except.error _ => 1
  | Except.ok _ => 0

/-- The final line `main` prints: "Failed." before exiting non-zero,
"Success." on the zero-exit path. -/
def mainMessage (args : List String) (outcome : String → Except String Unit) : String :=
  match (mainRun args outcome).1 with
  | Except.error _ => "Failed."
  | Except.ok _ => "Success."

/-- The `ListenArguments` struct of `test_listen.rs`. -/
structure ListenArguments where
  fd : Int
  backlog : Int
deriving Repr, DecidableEq

/-- The function `check_listen_call` from `test_listen.rs`.  The observed return value
`rv` and `errno` of the `libc::listen(args.fd, args.backlog)` call are
environment inputs, as is the `strerror` message table used in the diagnostic
strings. -/
def check_listen_call (strerror : Int → String) (args : ListenArguments)
    (rv errno : Int) (expected_errno : Option Int) : Except String Unit :=
  match expected_errno with
  | some e =>
    if rv ≠ -1 then
      Except.error ("Expecting a return value of -1, received " ++ toString rv)
    else if errno ≠ e then
      Except.error ("Expecting errno " ++ toString e ++ " \"" ++ strerror e ++
        "\", received " ++ toString errno ++ " \"" ++ strerror errno ++ "\"")
    else Except.ok ()
  | none =>
    if rv ≠ 0 then
      Except.error ("Expecting a return value of 0, received " ++ toString rv ++
        " \"" ++ strerror errno ++ "\"")
    else Except.ok ()

/-- Whether a test function succeeds under the given environment. -/
def okB (outcome : String → Except String Unit) (t : String) : Bool :=
  match outcome t with
  | Except.ok _ => true
  | Except.error _ => false

/-- The strict lexicographic order on names, as a proposition. -/
def strLtP (a b : String) : Prop := strLt a b = true

/-! ## Supporting lemmas: the event dispatch order -/

theorem eventLe_iff {e f : Event} :
    eventLe e f = true ↔
      (e.simulated_time < f.simulated_time ∨
        (e.simulated_time = f.simulated_time ∧
          e.sequence_number ≤ f.sequence_number)) := by
  simp [eventLe, Nat.blt_eq, Nat.ble_eq]

theorem eventLe_refl (e : Event) : eventLe e e = true := by
  rw [eventLe_iff]
  omega

theorem eventLe_trans {e f g : Event} (hef : eventLe e f = true)
    (hfg : eventLe f g = true) : eventLe e g = true := by
  rw [eventLe_iff] at hef hfg ⊢
  omega

theorem eventLe_of_not {e f : Event} (h : ¬ eventLe e f = true) :
    eventLe f e = true := by
  rw [eventLe_iff] at h ⊢
  omega

theorem findMin_mem : ∀ {q : List Event} {m : Event}, findMin q = some m → m ∈ q := by
  intro q
  induction q with
  | nil => intro m h; simp [findMin] at h
  | cons e es ih =>
    intro m h
    rw [findMin] at h
    cases hes : findMin es with
    | none =>
      rw [hes] at h
      simp at h
      simp [h]
    | some m' =>
      rw [hes] at h
      by_cases hle : eventLe e m' = true
      · simp [hle] at h
        simp [h]
      · simp [hle] at h
        exact List.mem_cons_of_mem e (h ▸ ih hes)

theorem findMin_eq_none : ∀ {q : List Event}, findMin q = none → q = [] := by
  intro q h
  cases q with
  | nil => rfl
  | cons e es =>
    rw [findMin] at h
    rcases hes : findMin es with _ | m'
    · rw [hes] at h
      simp at h
    · rw [hes] at h
      by_cases hle : eventLe e m' = true <;> simp [hle] at h

theorem findMin_le : ∀ {q : List Event} {m : Event}, findMin q = some m →
    ∀ f ∈ q, eventLe m f = true := by
  intro q
  induction q with
  | nil => intro m h; simp [findMin] at h
  | cons e es ih =>
    intro m h f hf
    rw [findMin] at h
    cases hes : findMin es with
    | none =>
      have hnil : es = [] := findMin_eq_none hes
      subst hnil
      rw [hes] at h
      simp at h
      subst h
      rcases List.mem_singleton.mp hf with rfl
      exact eventLe_refl f
    | some m' =>
      rw [hes] at h
      by_cases hle : eventLe e m' = true
      · simp [hle] at h
        rcases List.mem_cons.mp hf with rfl | hf'
        · exact h ▸ eventLe_refl f
        · exact eventLe_trans (h ▸ hle) (ih hes f hf')
      · simp [hle] at h
        rcases List.mem_cons.mp hf with rfl | hf'
        · exact h ▸ eventLe_of_not hle
        · exact h ▸ ih hes f hf'

theorem findMin_isSome_of_mem {q : List Event} {e : Event} (he : e ∈ q) :
    ∃ m, findMin q = some m := by
  cases hq : findMin q with
  | none => rw [findMin_eq_none hq] at he; simp at he
  | some m => exact ⟨m, rfl⟩

/-! ## Supporting lemmas: the lexicographic order on test names -/

theorem charListLt_trans : ∀ (a b c : List Char), charListLt a b = true →
    charListLt b c = true → charListLt a c = true := by
  intro a
  induction a with
  | nil => intro b c hab hbc; cases b <;> cases c <;> simp [charListLt] at *
  | cons x xs ih =>
    intro b c hab hbc
    cases b with
    | nil => simp [charListLt] at hab
    | cons y ys =>
      cases c with
      | nil => simp [charListLt] at hbc
      | cons z zs =>
        simp only [charListLt, Bool.or_eq_true, Bool.and_eq_true, Nat.blt_eq,
          beq_iff_eq] at hab hbc ⊢
        rcases hab with h1 | ⟨he1, h1⟩ <;> rcases hbc with h2 | ⟨he2, h2⟩
        · exact Or.inl (by omega)
        · exact Or.inl (by omega)
        · exact Or.inl (by omega)
        · exact Or.inr ⟨by omega, ih ys zs h1 h2⟩

theorem charListLt_eq_of_not : ∀ (a b : List Char), charListLt a b = false →
    charListLt b a = false → a = b := by
  intro a
  induction a with
  | nil => intro b hab _; cases b with
    | nil => rfl
    | cons y ys => simp [charListLt] at hab
  | cons x xs ih =>
    intro b hab hba
    cases b with
    | nil => simp [charListLt] at hba
    | cons y ys =>
      simp only [charListLt, Bool.or_eq_false_iff, Bool.and_eq_false_iff] at hab hba
      obtain ⟨hlt1, heq1⟩ := hab
      obtain ⟨hlt2, heq2⟩ := hba
      have hxy : x.toNat = y.toNat := by
        simp only [Bool.eq_false_iff, ne_eq, Nat.blt_eq] at hlt1 hlt2
        omega
      have hx : x = y := Char.eq_of_val_eq (UInt32.ext hxy)
      subst hx
      have htail : xs = ys := by
        apply ih
        · rcases heq1 with h | h
          · simp at h
          · exact Bool.eq_false_iff.mpr (by simpa using h)
        · rcases heq2 with h | h
          · simp [hxy] at h
          · exact Bool.eq_false_iff.mpr (by simpa using h)
      rw [htail]

theorem strLt_trans {a b c : String} (hab : strLt a b = true)
    (hbc : strLt b c = true) : strLt a c = true :=
  charListLt_trans a.data b.data c.data hab hbc

theorem strLt_eq_of_not {a b : String} (hab : strLt a b = false)
    (hba : strLt b a = false) : a = b := by
  have h := charListLt_eq_of_not a.data b.data hab hba
  cases a; cases b
  exact congrArg String.mk h

theorem strLt_total {a b : String} (hne : a ≠ b) :
    strLt a b = true ∨ strLt b a = true := by
  cases hab : strLt a b with
  | true => exact Or.inl rfl
  | false =>
    cases hba : strLt b a with
    | true => exact Or.inr rfl
    | false => exact absurd (strLt_eq_of_not hab hba) hne

/-! ## Supporting lemmas: the BTreeMap key list -/

theorem btreeInsert_head (k : String) : ∀ (l : List String) (y : String),
    (btreeInsert k l).head? = some y → y = k ∨ l.head? = some y := by
  intro l y h
  cases l with
  | nil => simp [btreeInsert] at h; exact Or.inl h.symm
  | cons x xs =>
    rw [btreeInsert] at h
    by_cases h1 : strLt k x = true
    · simp [h1] at h
      exact Or.inl h.symm
    · by_cases h2 : (k == x) = true <;> simp [h1, h2] at h <;> exact Or.inr (by simp [h])

theorem chain'_btreeInsert (k : String) : ∀ (l : List String),
    l.Chain' strLtP → (btreeInsert k l).Chain' strLtP := by
  intro l
  induction l with
  | nil => intro _; simp [btreeInsert]
  | cons x xs ih =>
    intro h
    rw [btreeInsert]
    cases h1 : strLt k x with
    | true =>
      simp only [if_pos]
      exact List.Chain'.cons h1 h
    | false =>
      cases h2 : k == x with
      | true =>
        simp only [Bool.false_eq_true, if_neg, if_pos, not_false_eq_true]
        exact h
      | false =>
        simp only [Bool.false_eq_true, if_neg, not_false_eq_true]
        have hne : k ≠ x := by
          intro he
          rw [he] at h2
          simp at h2
        have hxk : strLt x k = true := by
          rcases strLt_total hne with hc | hc
          · rw [h1] at hc
            exact absurd hc (by simp)
          · exact hc
        rw [List.chain'_cons']
        refine ⟨?_, ih (List.Chain'.tail h)⟩
        intro y hy
        rcases btreeInsert_head k xs y hy with rfl | hy'
        · exact hxk
        · exact (List.chain'_cons'.mp h).1 y hy'

theorem chain'_btreeFold : ∀ (l : List String) (m : List String),
    m.Chain' strLtP →
      (l.foldl (fun m k => btreeInsert k m) m).Chain' strLtP := by
  intro l
  induction l with
  | nil => intro m h; exact h
  | cons k ks ih => intro m h; exact ih _ (chain'_btreeInsert k m h)

theorem chain'_btreeOfList (l : List String) :
    (btreeOfList l).Chain' strLtP :=
  chain'_btreeFold l [] List.chain'_nil

theorem chain'_get_passing_tests : get_passing_tests.Chain' strLtP :=
  chain'_btreeOfList passingTestsVec

theorem chain'_get_all_tests : get_all_tests.Chain' strLtP :=
  chain'_btreeFold get_passing_tests (btreeOfList allOnlyTestsVec)
    (chain'_btreeOfList allOnlyTestsVec)

/-! ## Supporting lemmas: the run_tests loop -/

theorem run_tests_exec_true (outcome : String → Except String Unit) :
    ∀ l : List String, (run_tests outcome true l).2 = l := by
  intro l
  induction l with
  | nil => rfl
  | cons t ts ih => cases ho : outcome t <;> simp [run_tests, ho, ih]

theorem run_tests_ok_true (outcome : String → Except String Unit) :
    ∀ l : List String, (run_tests outcome true l).1 = Except.ok () := by
  intro l
  induction l with
  | nil => rfl
  | cons t ts ih => cases ho : outcome t <;> simp [run_tests, ho, ih]

theorem run_tests_ok_false_iff (outcome : String → Except String Unit) :
    ∀ l : List String,
      (run_tests outcome false l).1 = Except.ok () ↔ ∀ t ∈ l, okB outcome t = true := by
  intro l
  induction l with
  | nil => simp [run_tests]
  | cons t ts ih =>
    cases ho : outcome t with
    | ok u =>
      cases u
      simp [run_tests, ho, okB, List.forall_mem_cons, ih]
    | error msg =>
      simp [run_tests, ho, okB, List.forall_mem_cons]

theorem run_tests_exec_false (outcome : String → Except String Unit) :
    ∀ l : List String,
      (run_tests outcome false l).2 =
        l.takeWhile (okB outcome) ++ (l.dropWhile (okB outcome)).take 1 := by
  intro l
  induction l with
  | nil => rfl
  | cons t ts ih =>
    cases ho : outcome t with
    | ok u =>
      cases u
      simp [run_tests, ho, okB, List.takeWhile_cons, List.dropWhile_cons, ih]
    | error msg =>
      simp [run_tests, ho, okB, List.takeWhile_cons, List.dropWhile_cons]

theorem run_tests_ok_iff (outcome : String → Except String Unit) (s : Bool)
    (l : List String) :
    (run_tests outcome s l).1 = Except.ok () ↔
      (s = true ∨ ∀ t ∈ l, okB outcome t = true) := by
  cases s with
  | true => simp [run_tests_ok_true]
  | false => simp [run_tests_ok_false_iff]

theorem except_unit_cases (r : Except Unit Unit) :
    r = Except.ok () ∨ r = Except.error () := by
  cases r with
  | ok u => cases u; exact Or.inl rfl
  | error u => cases u; exact Or.inr rfl

/-! ## Claim theorems -/

/-- C1: for every horizon and every scheduler queue, `next_due(horizon)` pops
and returns the minimum event only if that event's timestamp is ≤ horizon;
otherwise it returns nothing and leaves the queue unchanged, so a Worker
never pops an event with `simulated_time > current_horizon`. -/
theorem next_due_horizon_safe (q : List Event) (horizon : Nat) :
    ((next_due q horizon).1 = none → (next_due q horizon).2 = q) ∧
    (∀ e : Event, (next_due q horizon).1 = some e →
      e.simulated_time ≤ horizon ∧ e ∈ q ∧
        (∀ f ∈ q, eventLe e f = true) ∧ (next_due q horizon).2 = q.erase e) ∧
    (∀ m : Event, findMin q = some m → m.simulated_time ≤ horizon →
      (next_due q horizon).1 = some m) := by
  unfold next_due
  cases hm : findMin q with
  | none =>
    refine ⟨fun _ => rfl, fun e he => by simp at he, fun m hm' _ => by simp at hm'⟩
  | some m =>
    by_cases hh : m.simulated_time ≤ horizon
    · dsimp only
      rw [if_pos hh]
      refine ⟨fun hcon => by simp at hcon, ?_, ?_⟩
      · intro e he
        simp only [Option.some.injEq] at he
        subst he
        exact ⟨hh, findMin_mem hm, findMin_le hm, rfl⟩
      · intro m' hm' _
        simp only [Option.some.injEq] at hm'
        rw [hm']
    · dsimp only
      rw [if_neg hh]
      refine ⟨fun _ => rfl, fun e he => by simp at he, ?_⟩
      intro m' hm' hh'
      simp only [Option.some.injEq] at hm'
      subst hm'
      exact absurd hh' hh

/-- C5: among queued events with equal `simulated_time`, the one with the
lower `sequence_number` is dispatched first: `next_due` never returns the
higher-sequence event while the lower-sequence one is still queued, and
whenever the lower-sequence event is due, some event that precedes it in the
`(simulated_time, sequence_number)` total order is popped. -/
theorem equal_time_lower_seq_first (q : List Event) (horizon : Nat) (e f : Event)
    (he : e ∈ q) (hf : f ∈ q) (ht : e.simulated_time = f.simulated_time)
    (hs : e.sequence_number < f.sequence_number) :
    (next_due q horizon).1 ≠ some f ∧
      (e.simulated_time ≤ horizon →
        ∃ g, (next_due q horizon).1 = some g ∧ eventLe g e = true) := by
  constructor
  · intro hcon
    have hmin : ∀ x ∈ q, eventLe f x = true := by
      unfold next_due at hcon
      cases hm : findMin q with
      | none => rw [hm] at hcon; simp at hcon
      | some m =>
        rw [hm] at hcon
        by_cases hh : m.simulated_time ≤ horizon
        · simp only [hh, if_pos, Option.some.injEq] at hcon
          subst hcon
          exact findMin_le hm
        · simp [hh] at hcon
    have hfe := hmin e he
    rw [eventLe_iff] at hfe
    omega
  · intro hhor
    obtain ⟨m, hm⟩ := findMin_isSome_of_mem he
    have hle := findMin_le hm e he
    have hmt : m.simulated_time ≤ horizon := by
      rw [eventLe_iff] at hle
      omega
    refine ⟨m, ?_, hle⟩
    unfold next_due
    rw [hm]
    simp [hmt]

/-- Witness for C5 at a concrete queue: with two events at time 3 and
sequence numbers 1 and 2, `next_due` with horizon 10 does not return the
sequence-2 event and pops an event ordered no later than the sequence-1
event. -/
theorem equal_time_lower_seq_first_witness :
    (next_due [(⟨3, 2, 0, 0⟩ : Event), ⟨3, 1, 0, 0⟩] 10).1 ≠ some ⟨3, 2, 0, 0⟩ ∧
      ((Event.mk 3 1 0 0).simulated_time ≤ 10 →
        ∃ g, (next_due [(⟨3, 2, 0, 0⟩ : Event), ⟨3, 1, 0, 0⟩] 10).1 = some g ∧
          eventLe g ⟨3, 1, 0, 0⟩ = true) :=
  equal_time_lower_seq_first _ 10 ⟨3, 1, 0, 0⟩ ⟨3, 2, 0, 0⟩ (by decide) (by decide)
    rfl (by decide)

/-- C3: an invalid configuration — lookahead bound below the network model's
declared minimum inter-host latency, or a zero worker count — makes the
Manager fail with a `ConfigurationError` during `Initializing`.  The error
result carries no `ManagerState`, so no Worker is spawned and no partial
state remains. -/
theorem manager_config_error_before_spawn (cfg : Config) (min_latency : Nat)
    (hosts : List Nat)
    (h : cfg.lookahead_bound < min_latency ∨ cfg.worker_count = 0) :
    ∃ msg, managerInit cfg min_latency hosts =
      Except.error (ManagerError.configurationError msg) := by
  rcases h with h | h
  · cases hw : cfg.worker_count == 0 with
    | true => exact ⟨"zero worker count", by rw [managerInit]; simp [hw]⟩
    | false =>
      exact ⟨"lookahead bound smaller than declared minimum latency",
        by rw [managerInit]; simp [hw, h]⟩
  · exact ⟨"zero worker count", by rw [managerInit]; simp [h]⟩

/-- Witness for C3: lookahead bound 0 with declared minimum latency 5 fails
with a `ConfigurationError`. -/
theorem manager_config_error_before_spawn_witness :
    ∃ msg, managerInit { worker_count := 2, lookahead_bound := 0, end_time := 100 } 5
        [0, 1, 2] = Except.error (ManagerError.configurationError msg) :=
  manager_config_error_before_spawn _ 5 _ (Or.inl (by decide))

/-- C4: a `charge` call sets the host's next-available timestamp to
`max(simulated_now, next_available) + delay`, never decreases it, and every
sequence of `charge` calls leaves it monotonically non-decreasing. -/
theorem charge_next_available_monotone (cpu : Cpu) (simulated_now : Nat)
    (work_units : Int) (calls : List (Nat × Int)) :
    (charge cpu simulated_now work_units).2.next_available =
        max simulated_now cpu.next_available + (charge cpu simulated_now work_units).1 ∧
      cpu.next_available ≤ (charge cpu simulated_now work_units).2.next_available ∧
      cpu.next_available ≤ (chargeMany cpu calls).next_available := by
  refine ⟨rfl, ?_, ?_⟩
  · simp only [charge]
    omega
  · induction calls generalizing cpu with
    | nil => simp [chargeMany]
    | cons c cs ih =>
      have hstep : cpu.next_available ≤ (charge cpu c.1 c.2).2.next_available := by
        simp only [charge]
        omega
      have hcons : chargeMany cpu (c :: cs) = chargeMany (charge cpu c.1 c.2).2 cs := rfl
      rw [hcons]
      exact le_trans hstep (ih _)

/-- C6 counterexample: `charge` with `work_units = 0` at `simulated_now = 5`
on a host whose next-available timestamp is 0 returns zero delay but moves
the next-available timestamp to `max(5, 0) + 0 = 5`, so it does not leave it
unchanged as the claim states. -/
theorem charge_nonpositive_cex :
    (charge { capacity := none, next_available := 0 } 5 0).1 = 0 ∧
      ¬ (charge { capacity := none, next_available := 0 } 5 0).2.next_available =
          ({ capacity := none, next_available := 0 } : Cpu).next_available := by
  exact ⟨rfl, by decide⟩

/-- C6 (amended): `charge` with `work_units ≤ 0` returns zero delay and only
clamps the next-available timestamp to `max(simulated_now, next_available)`,
leaving it unchanged whenever `simulated_now ≤ next_available`; `charge` is a
total function, so it never fails. -/
theorem charge_nonpositive_clamp (cpu : Cpu) (simulated_now : Nat)
    (work_units : Int) (h : work_units ≤ 0) :
    (charge cpu simulated_now work_units).1 = 0 ∧
      (charge cpu simulated_now work_units).2.next_available =
        max simulated_now cpu.next_available ∧
      (charge cpu simulated_now work_units).2.capacity = cpu.capacity ∧
      (simulated_now ≤ cpu.next_available →
        (charge cpu simulated_now work_units).2.next_available =
          cpu.next_available) := by
  refine ⟨by simp [charge, chargeDelay, h], by simp [charge, chargeDelay, h], rfl, ?_⟩
  intro hle
  simp only [charge, chargeDelay, h, if_pos]
  omega

/-- Witness for the amended C6 at a concrete host: `charge` of `-1` work
units at time 2 on a host with capacity 3 and next-available 7. -/
theorem charge_nonpositive_clamp_witness :
    (charge { capacity := some 3, next_available := 7 } 2 (-1)).1 = 0 ∧
      (charge { capacity := some 3, next_available := 7 } 2 (-1)).2.next_available =
        max 2 ({ capacity := some 3, next_available := 7 } : Cpu).next_available ∧
      (charge { capacity := some 3, next_available := 7 } 2 (-1)).2.capacity =
        ({ capacity := some 3, next_available := 7 } : Cpu).capacity ∧
      (2 ≤ ({ capacity := some 3, next_available := 7 } : Cpu).next_available →
        (charge { capacity := some 3, next_available := 7 } 2 (-1)).2.next_available =
          ({ capacity := some 3, next_available := 7 } : Cpu).next_available) :=
  charge_nonpositive_clamp { capacity := some 3, next_available := 7 } 2 (-1)
    (by decide)

/-- C2: the harness's test collection is a pure function of the
`--shadow-passing` flag — two invocations with the same flag setting build
the same `BTreeMap` and therefore run the same tests — the map's key list is
strictly sorted in lexicographic name order, and a summarising run executes
exactly that key list in that order. -/
theorem fixed_flags_lexicographic (args args' : List String)
    (outcome : String → Except String Unit) :
    (mainTests args).Chain' strLtP ∧
      (run_tests outcome true (mainTests args)).2 = mainTests args ∧
      (hasArg args ("--shadow-passing") = hasArg args' ("--shadow-passing") →
        mainTests args = mainTests args') := by
  refine ⟨?_, run_tests_exec_true outcome _, ?_⟩
  · unfold mainTests
    by_cases hb : hasArg args ("--shadow-passing") = true
    · simp [hb, chain'_get_passing_tests]
    · simp [hb, chain'_get_all_tests]
  · intro h
    unfold mainTests
    rw [h]

/-- C7: `main` exits 0 exactly when `run_tests` returned `Ok` — every
executed check succeeded or failures were only summarized by request — prints
"Success." in that case, and exits 1 printing "Failed." when `run_tests`
returned `Err`. -/
theorem main_exit_code_iff (args : List String)
    (outcome : String → Except String Unit) :
    (mainExitCode args outcome = 0 ↔ (mainRun args outcome).1 = Except.ok ()) ∧
      (mainExitCode args outcome ≠ 0 ↔
        (mainRun args outcome).1 = Except.error ()) ∧
      (mainMessage args outcome = "Success." ↔ mainExitCode args outcome = 0) ∧
      (mainMessage args outcome = "Failed." ↔ mainExitCode args outcome = 1) ∧
      ((mainRun args outcome).1 = Except.ok () ↔
        (hasArg args ("--summarize") = true ∨
          ∀ t ∈ mainTests args, okB outcome t = true)) := by
  have hiff : (mainRun args outcome).1 = Except.ok () ↔
      (hasArg args ("--summarize") = true ∨
        ∀ t ∈ mainTests args, okB outcome t = true) :=
    run_tests_ok_iff outcome (hasArg args ("--summarize")) (mainTests args)
  rcases except_unit_cases (mainRun args outcome).1 with h | h
  · refine ⟨?_, ?_, ?_, ?_, hiff⟩ <;>
      simp only [mainExitCode, mainMessage, h] <;> simp
  · refine ⟨?_, ?_, ?_, ?_, hiff⟩ <;>
      simp only [mainExitCode, mainMessage, h] <;> simp

/-- C8: with `summarize = true`, `run_tests` returns `Ok(())` and runs every
test even when some fail; with `summarize = false` it returns `Err(())` as
soon as a test fails, running only the passing prefix and the first failing
test; consequently a `--summarize` invocation prints "Success." and exits 0
regardless of failures. -/
theorem run_tests_summarize_semantics (outcome : String → Except String Unit)
    (l : List String) (args : List String) :
    (run_tests outcome true l).1 = Except.ok () ∧
      (run_tests outcome true l).2 = l ∧
      ((run_tests outcome false l).1 = Except.error () ↔
        ¬ ∀ t ∈ l, okB outcome t = true) ∧
      (run_tests outcome false l).2 =
        l.takeWhile (okB outcome) ++ (l.dropWhile (okB outcome)).take 1 ∧
      mainExitCode ("--summarize" :: args) outcome = 0 ∧
      mainMessage ("--summarize" :: args) outcome = "Success." := by
  have hsum : hasArg ("--summarize" :: args) ("--summarize") = true := by
    simp [hasArg]
  have hok : (mainRun ("--summarize" :: args) outcome).1 = Except.ok () := by
    unfold mainRun
    rw [hsum]
    exact run_tests_ok_true outcome _
  refine ⟨run_tests_ok_true outcome l, run_tests_exec_true outcome l, ?_,
    run_tests_exec_false outcome l, ?_, ?_⟩
  · constructor
    · intro he hall
      have hcon := (run_tests_ok_false_iff outcome l).mpr hall
      rw [he] at hcon
      simp at hcon
    · intro hna
      rcases except_unit_cases (run_tests outcome false l).1 with hc | hc
      · exact absurd ((run_tests_ok_false_iff outcome l).mp hc) hna
      · exact hc
  · simp only [mainExitCode, hok]
  · simp only [mainMessage, hok]

/-- C9: `check_listen_call` returns `Ok(())` exactly when the observed
`(return value, errno)` pair matches the expectation — `expected_errno =
Some(e)` with return value `-1` and `errno = e`, or `expected_errno = None`
with return value `0` — and in every other case it returns `Err` with a
diagnostic message. -/
theorem check_listen_call_ok_iff (strerror : Int → String)
    (args : ListenArguments) (rv errno : Int) (expected_errno : Option Int) :
    (check_listen_call strerror args rv errno expected_errno = Except.ok () ↔
      ((∃ e, expected_errno = some e ∧ rv = -1 ∧ errno = e) ∨
        (expected_errno = none ∧ rv = 0))) ∧
      (check_listen_call strerror args rv errno expected_errno ≠ Except.ok () →
        ∃ msg, check_listen_call strerror args rv errno expected_errno =
          Except.error msg) := by
  constructor
  · cases expected_errno with
    | none =>
      by_cases h : rv = 0 <;> simp [check_listen_call, h]
    | some e =>
      by_cases h1 : rv = -1
      · by_cases h2 : errno = e <;> simp [check_listen_call, h1, h2]
      · simp [check_listen_call, h1]
  · intro hne
    cases hc : check_listen_call strerror args rv errno expected_errno with
    | ok u => cases u; exact absurd hc hne
    | error msg => exact ⟨msg, rfl⟩

/-- C10: `get_passing_tests` builds exactly 75 tests (3 base tests plus 4
tests for each of the 2 socket types × 3 flags × 3 bind addresses, all with
pairwise-distinct names), `get_all_tests` builds exactly 94 tests and
includes every test of `get_passing_tests`, and the duplicate-name
`assert_eq!` checks in both functions hold. -/
theorem test_collections_counts :
    get_passing_tests.length = 75 ∧ passingAssertHolds ∧
      get_all_tests.length = 94 ∧ allAssertHolds ∧
      (∀ k ∈ get_passing_tests, k ∈ get_all_tests) ∧
      passingTestsVec.Nodup ∧ allOnlyTestsVec.Nodup := by
  refine ⟨by decide, ?_, by decide, ?_, by decide, by decide, by decide⟩
  · unfold passingAssertHolds
    decide
  · unfold allAssertHolds
    decide

end ShadowSpec
